import Mathlib

/-!
Verification development for the depgrapher repository.

The embedding follows the Go sources:
* the graph package (slice-backed `Graph`: a `nodes` map keyed by the node
  name and an `edges` slice), `src/depgrapher.go` lines 80-415;
* the syntax package (`Syntax` record, presets and `Parse`),
  `src/unnamed/part_003`.

Node identity in the repository is the node's `String()` name (two nodes with
the same name are the same node), so nodes are embedded as their name and the
Go `map[string]Node` becomes the finite set of registered names.  Go strings
are embedded as `List Char` (all inputs of interest are ASCII, so byte
indices and rune indices agree).  Go `panic` is embedded as an explicit
error/`none` result.
-/

namespace Depgrapher

abbrev Str := List Char

/-- `edge` struct of the graph package: a `source` and a `target` name. -/
structure Edge where
  source : Str
  target : Str
deriving DecidableEq, Repr

/-- The zero value `edge{}` used by the swap-delete code paths. -/
def zeroEdge : Edge := ⟨[], []⟩

/-- `Graph` of the graph package: the key set of the `nodes` map plus the
`edges` slice (order and duplicates preserved). -/
structure Graph where
  nodes : Finset Str
  edges : List Edge
deriving DecidableEq

/-- `graph.New()`: a freshly initialized empty graph. -/
def NewGraph : Graph := ⟨∅, []⟩

/-- Target-edge loop of `Graph.AddNode`: for each target name, panic
(`none`) if the target is not a registered node, else append the edge. -/
def AddNodeLoop (name : Str) (g : Graph) : List Str → Option Graph
  | [] => some g
  | t :: ts =>
    if t ∈ g.nodes then AddNodeLoop name ⟨g.nodes, g.edges ++ [⟨name, t⟩]⟩ ts
    else none

/-- `Graph.AddNode`: registers the node, then adds an edge to each given
target name, panicking (`none`) when a target is absent.  The node itself is
inserted before the targets are checked, so a self-target is legal. -/
def AddNode (g : Graph) (name : Str) (targetNames : List Str) : Option Graph :=
  AddNodeLoop name ⟨insert name g.nodes, g.edges⟩ targetNames

/-- `Graph.AddNodes`: registers the given nodes. -/
def AddNodes (g : Graph) (names : List Str) : Graph :=
  ⟨names.foldl (fun s n => insert n s) g.nodes, g.edges⟩

/-- `Graph.GetNode`: the node with the given name, or `none` (Go `nil`). -/
def GetNode (g : Graph) (name : Str) : Option Str :=
  if name ∈ g.nodes then some name else none

/-- The body of `Graph.RemoveNode`'s edge-removal loop
(`for i, e := range g.edges`), made explicit.  The `range` expression is
evaluated once, so the loop always performs the original number of
iterations over the shared backing array while `g.edges` itself is shrunk by
the swap-deletes; `backing` is the backing array (its length never changes),
`curLen` the current length of `g.edges`, `i` the iteration index and
`steps` the remaining iterations.  Each swap-delete writes the current last
edge into slot `i`, zeroes the last slot and truncates by one; writing to
`g.edges[i]` with `i ≥ curLen` is an index-out-of-range panic (`none`). -/
def RemoveNodeLoop (name : Str) (backing : List Edge) (curLen i : Nat) :
    Nat → Option (List Edge)
  | 0 => some (backing.take curLen)
  | steps + 1 =>
    let e := backing.getD i zeroEdge
    if e.source = name ∨ e.target = name then
      if i < curLen then
        let last := backing.getD (curLen - 1) zeroEdge
        RemoveNodeLoop name ((backing.set i last).set (curLen - 1) zeroEdge)
          (curLen - 1) (i + 1) steps
      else none
    else RemoveNodeLoop name backing curLen (i + 1) steps

/-- `Graph.RemoveNode`: `false` and no change when the name is absent;
otherwise the name is deleted from the node map and the edge loop runs. -/
def RemoveNode (g : Graph) (name : Str) : Option (Bool × Graph) :=
  if name ∈ g.nodes then
    match RemoveNodeLoop name g.edges g.edges.length 0 g.edges.length with
    | some edges1 => some (true, ⟨g.nodes.erase name, edges1⟩)
    | none => none
  else some (false, g)

/-- `Graph.AddEdge`: panics (`none`) when either endpoint is not registered,
else appends the edge. -/
def AddEdge (g : Graph) (source target : Str) : Option Graph :=
  if source ∉ g.nodes then none
  else if target ∉ g.nodes then none
  else some ⟨g.nodes, g.edges ++ [⟨source, target⟩]⟩

/-- `Graph.AddEdgeAndNodes`: registers both endpoints if absent, then
appends the edge.  Never fails. -/
def AddEdgeAndNodes (g : Graph) (source target : Str) : Graph :=
  ⟨insert target (insert source g.nodes), g.edges ++ [⟨source, target⟩]⟩

/-- `Graph.HasEdge`: whether some edge has the given source and target. -/
def HasEdge (g : Graph) (source target : Str) : Bool :=
  g.edges.any fun e => e.source = source ∧ e.target = target

/-- Last element of an edge slice (`edges[len(edges)-1]`), with a default
for the empty slice. -/
def lastEdgeD (d : Edge) : List Edge → Edge
  | [] => d
  | [e] => e
  | _ :: e :: t => lastEdgeD d (e :: t)

/-- `Graph.RemoveEdge`: finds the first matching edge, removes it by
swap-delete (the last edge moves into its slot, order is not preserved) and
returns `true`; `false` and no change when no edge matches. -/
def RemoveEdge (g : Graph) (source target : Str) : Bool × Graph :=
  match g.edges.findIdx? (fun e => e.source = source ∧ e.target = target) with
  | none => (false, g)
  | some j =>
    (true, ⟨g.nodes, ((g.edges.set j (lastEdgeD zeroEdge g.edges)).dropLast)⟩)

/-- `Graph.GetDependencies`: for each edge out of `node`, the entry of the
node map at the edge's target (`none` when the target name is dangling,
mirroring Go's `nil` entry). -/
def GetDependencies (g : Graph) (node : Str) : List (Option Str) :=
  (g.edges.filter fun e => e.source = node).map fun e => GetNode g e.target

/-- `Graph.GetDependants`: for each edge into `node`, the entry of the node
map at the edge's source. -/
def GetDependants (g : Graph) (node : Str) : List (Option Str) :=
  (g.edges.filter fun e => e.target = node).map fun e => GetNode g e.source

/-- The edges of `g` whose source is `v`, in slice order (the repeated
`for _, e := range g.edges { if e.source == … }` collection loops). -/
def outEdges (g : Graph) (v : Str) : List Edge :=
  g.edges.filter fun e => e.source = v

/-! ## String helpers of the Go standard library (package `strings`) -/

/-- `strings.Index(s, sub)`: position of the first occurrence of `sub` in
`s`, `none` for Go's `-1`.  `Index(s, "") = 0`. -/
def firstIdx : Str → Str → Option Nat
  | s, sub =>
    if sub.isPrefixOf s then some 0
    else match s with
      | [] => none
      | _ :: t => (firstIdx t sub).map (· + 1)

/-- `strings.LastIndex(s, sub)`: position of the last occurrence of `sub`
in `s`; `LastIndex(s, "") = len(s)`. -/
def lastIdx : Str → Str → Option Nat
  | [], sub => if sub.isPrefixOf [] then some 0 else none
  | c :: t, sub =>
    match (lastIdx t sub).map (· + 1) with
    | some i => some i
    | none => if sub.isPrefixOf (c :: t) then some 0 else none

/-- `strings.IndexAny(s, chars)`: position of the first character of `s`
contained in `chars`. -/
def firstIdxAny : Str → List Char → Option Nat
  | [], _ => none
  | c :: t, chars =>
    if c ∈ chars then some 0 else (firstIdxAny t chars).map (· + 1)

/-- `strings.Contains(s, sub)`; `Contains(s, "") = true`. -/
def containsStr (s sub : Str) : Bool :=
  (firstIdx s sub).isSome

/-- The whitespace predicate of `unicode.IsSpace` restricted to the Latin-1
range (all characters the repository's inputs can contain). -/
def isGoSpace (c : Char) : Bool :=
  c = ' ' ∨ c = '\t' ∨ c = '\n' ∨ c.toNat = 11 ∨ c.toNat = 12 ∨ c = '\r' ∨
    c.toNat = 0x85 ∨ c.toNat = 0xA0

/-- `strings.TrimSpace`: drop leading and trailing whitespace. -/
def trimSpace (s : Str) : Str :=
  ((s.dropWhile isGoSpace).reverse.dropWhile isGoSpace).reverse

theorem firstIdx_le {s sub : Str} {i : Nat} (h : firstIdx s sub = some i) :
    i + sub.length ≤ s.length := by
  induction s generalizing i with
  | nil =>
    rw [firstIdx] at h
    split at h
    · rename_i hp
      rw [List.isPrefixOf_iff_prefix] at hp
      have hle := hp.length_le
      simp only [Option.some_inj] at h
      simp only [List.length_nil, Nat.le_zero] at hle
      simp [← h, hle]
    · exact absurd h (by simp)
  | cons c t ih =>
    rw [firstIdx] at h
    split at h
    · rename_i hp
      rw [List.isPrefixOf_iff_prefix] at hp
      have hle := hp.length_le
      simp only [Option.some_inj] at h
      subst h
      simpa using hle
    · simp only [Option.map_eq_some'] at h
      obtain ⟨j, hj, hji⟩ := h
      have := ih hj
      simp only [List.length_cons]
      omega

theorem firstIdx_ne_nil {s sub : Str} {i : Nat} (hsub : sub ≠ [])
    (h : firstIdx s sub = some i) : s ≠ [] := by
  intro hs
  subst hs
  rw [firstIdx] at h
  split at h
  · rename_i hp
    rw [List.isPrefixOf_iff_prefix] at hp
    exact hsub (List.prefix_nil.mp hp)
  · exact absurd h (by simp)

theorem firstIdxAny_lt {s : Str} {chars : List Char} {i : Nat}
    (h : firstIdxAny s chars = some i) : i < s.length := by
  induction s generalizing i with
  | nil => exact absurd h (by simp [firstIdxAny])
  | cons c t ih =>
    rw [firstIdxAny] at h
    split at h
    · simp only [Option.some_inj] at h
      simp [← h]
    · simp only [Option.map_eq_some'] at h
      obtain ⟨j, hj, hji⟩ := h
      have := ih hj
      simp only [List.length_cons]
      omega

/-- `strings.Split(s, sep)`: with empty `sep` the string is exploded into
single characters, otherwise `s` is cut around the leftmost-first
non-overlapping occurrences of `sep` (`Split("", sep) = [""]`). -/
def splitOn (s sep : Str) : List Str :=
  if hsep : sep = [] then s.map (fun c => [c])
  else
    match h : firstIdx s sep with
    | none => [s]
    | some i => s.take i :: splitOn (s.drop (i + sep.length)) sep
termination_by s.length
decreasing_by
  have h1 := firstIdx_le h
  have h2 : s ≠ [] := firstIdx_ne_nil hsep h
  have h3 : 0 < s.length := List.length_pos.mpr h2
  have h4 : 0 < sep.length := List.length_pos.mpr hsep
  simp only [List.length_drop]
  omega

/-! ## The syntax package (`src/unnamed/part_003`) -/

/-- The `Syntax` record of the syntax package: seven delimiter strings and
the whitespace-stripping flag (`IGNOREFIELD` is the empty string). -/
structure Syntax where
  GraphPrefix : Str
  EdgePrefix : Str
  SourceDelimiter : Str
  EdgeInfix : Str
  TargetDelimiter : Str
  EdgeSuffix : Str
  GraphSuffix : Str
  StripWhitespace : Bool
deriving DecidableEq, Repr

/-- The `syntax.Makefile` preset. -/
def Makefile : Syntax :=
  { GraphPrefix := []
    EdgePrefix := []
    SourceDelimiter := " ".toList
    EdgeInfix := ":".toList
    TargetDelimiter := " ".toList
    EdgeSuffix := []
    GraphSuffix := []
    StripWhitespace := true }

/-- The `syntax.MakeCall` composite preset (two alternate statement shapes). -/
def MakeCall : List Syntax :=
  [{ GraphPrefix := []
     EdgePrefix := "$(call DEPEND_ALL,".toList
     SourceDelimiter := []
     EdgeInfix := ",".toList
     TargetDelimiter := ",".toList
     EdgeSuffix := ")".toList
     GraphSuffix := []
     StripWhitespace := true },
   { GraphPrefix := []
     EdgePrefix := "$(call ALL_SPECS,".toList
     SourceDelimiter := ",".toList
     EdgeInfix := "):".toList
     TargetDelimiter := " ".toList
     EdgeSuffix := []
     GraphSuffix := []
     StripWhitespace := true }]

/-- The `syntax.Dot` preset. -/
def Dot : Syntax :=
  { GraphPrefix := "digraph\x7b".toList
    EdgePrefix := []
    SourceDelimiter := []
    EdgeInfix := "->".toList
    TargetDelimiter := []
    EdgeSuffix := ";".toList
    GraphSuffix := "\x7d".toList
    StripWhitespace := true }

/-- Result of `syntax.Parse`: a successful syntax list, a returned error, or
a Go runtime panic. -/
inductive ParseResult where
  | ok (syntaxes : List Syntax)
  | err (msg : Str)
  | panicked (msg : Str)
deriving DecidableEq

/-- The preset-name `switch` of `syntax.Parse` (it appears verbatim twice in
the source: once for comma-separated tokens, once for the final token). -/
def ParseTokenPreset (token : Str) : Option (List Syntax) :=
  if token ∈ ["Makefile".toList, "makefile".toList, "Make".toList,
      "make".toList, "m".toList] then some [Makefile]
  else if token ∈ ["MakeCall".toList, "makecall".toList, "c".toList] then
    some MakeCall
  else if token ∈ ["Dot".toList, "dot".toList, "d".toList] then some [Dot]
  else none

/-- The trailing `switch s` of `syntax.Parse` applied to the last token. -/
def ParseFinal (s : Str) (result : List Syntax) : ParseResult :=
  match ParseTokenPreset s with
  | some l => .ok (result ++ l)
  | none => .err ("Invalid syntax name: ".toList ++ s)

/-- The scanning loop of `syntax.Parse`.  The loop runs only while the first
occurrence of one of `, { } " '` sits at a *positive* index (`index > 0`);
when the first special character is at index 0 (or there is none) the loop
stops and the whole remaining string is parsed as a preset name.  Inside the
loop: a comma cuts off a preset-name token; an opening brace (necessarily at
a positive index here) is an error; a closing brace is an error unless
exactly 6 strings were collected, in which case `stringList[6]` panics; a
double quote appends `s[:endIndex]` where `endIndex` is the first quote of
`s` (which is the very character just found), and a single quote is ignored
(`// TODO`). -/
def ParseLoop (s : Str) (result : List Syntax) (stringList : List Str) :
    ParseResult :=
  match hidx : firstIdxAny s [',', '{', '}', '"', '\''] with
  | none => ParseFinal s result
  | some index =>
    if index = 0 then ParseFinal s result
    else
      let c := s.getD index (Char.ofNat 0)
      if c = ',' then
        match ParseTokenPreset (s.take index) with
        | some l => ParseLoop (s.drop (index + 1)) (result ++ l) stringList
        | none => .err ("Invalid syntax name: ".toList ++ s.take index)
      else if c = '{' then
        .err ("Unexpected character(s) before opening bracket: '".toList ++
          s.take index ++ "'".toList)
      else if c = '}' then
        if stringList.length ≠ 6 then
          .err "Brackets didn't contain the 7 syntax elements".toList
        else .panicked "runtime error: index out of range [6] with length 6".toList
      else if c = '"' then
        match hq : firstIdx s ['"'] with
        | some endIndex =>
          ParseLoop (s.drop (endIndex + 1)) result (stringList ++ [s.take endIndex])
        | none => .panicked "slice bounds out of range".toList
      else
        ParseLoop (s.drop (index + 1)) result stringList
termination_by s.length
decreasing_by
  · have h1 := firstIdxAny_lt hidx
    simp only [List.length_drop]
    omega
  · have h1 := firstIdxAny_lt hidx
    have h2 := firstIdx_le hq
    simp only [List.length_cons, List.length_nil] at h2
    simp only [List.length_drop]
    omega
  · have h1 := firstIdxAny_lt hidx
    simp only [List.length_drop]
    omega

/-- `syntax.Parse`. -/
def Parse (s : Str) : ParseResult :=
  ParseLoop s [] []

/-- The split-point characters of `Parse`'s scan
(`strings.IndexAny(s, ",{}\"'")`). -/
def specialChars : List Char := [',', '{', '}', '"', '\'']

/-- The preset-name spellings accepted by the `switch` of `syntax.Parse`,
in source order. -/
def presetSpellings : List Str :=
  ["Makefile".toList, "makefile".toList, "Make".toList, "make".toList,
   "m".toList, "MakeCall".toList, "makecall".toList, "c".toList,
   "Dot".toList, "dot".toList, "d".toList]

/-- Comma-join of a token list: the shape of a configuration string that
lists preset names. -/
def joinComma : List Str → Str
  | [] => []
  | [t] => t
  | t :: t2 :: ts => t ++ ',' :: joinComma (t2 :: ts)

/-! ## Line splitting (`scanLineWithEscape`, `src/depgrapher.go` 402-415)

`bufio.ScanLines` and the split-function protocol: a split function receives
the unconsumed data and the at-EOF flag and returns how many bytes to
advance plus an optional token (`none` requests more data / ends the
scan). -/

/-- Last character of a string (`s[len(s)-1]`), `none` when empty.
(Structural stand-in for `List.getLast?`, kept executable by kernel
reduction.) -/
def lastChar? : Str → Option Char
  | [] => none
  | [c] => some c
  | _ :: c :: t => lastChar? (c :: t)

/-- `dropCR` of `bufio`: drop a single trailing carriage return. -/
def dropCR (l : Str) : Str :=
  if lastChar? l = some '\r' then l.dropLast else l

/-- Split the data at the first newline byte. -/
def breakLine : Str → Option (Str × Str)
  | [] => none
  | c :: rest =>
    if c = '\n' then some ([], rest)
    else match breakLine rest with
      | some (pre, post) => some (c :: pre, post)
      | none => none

/-- `bufio.ScanLines`: at EOF with no data, stop; otherwise return the text
up to (and consuming) the first newline, or, at EOF, all remaining data;
a trailing carriage return is dropped from the token. -/
def scanLines (data : Str) (atEOF : Bool) : Nat × Option Str :=
  if atEOF ∧ data = [] then (0, none)
  else match breakLine data with
    | some (pre, _) => (pre.length + 1, some (dropCR pre))
    | none => if atEOF then (data.length, some (dropCR data)) else (0, none)

theorem breakLine_eq {data pre post : Str} (h : breakLine data = some (pre, post)) :
    data = pre ++ '\n' :: post := by
  induction data generalizing pre with
  | nil => exact absurd h (by simp [breakLine])
  | cons c rest ih =>
    rw [breakLine] at h
    split at h
    · rename_i hc
      subst hc
      simp only [Option.some_inj, Prod.mk.injEq] at h
      obtain ⟨h1, h2⟩ := h
      simp [← h1, ← h2]
    · rename_i hc
      split at h
      · rename_i pre1 post1 hb
        simp only [Option.some_inj, Prod.mk.injEq] at h
        obtain ⟨h1, h2⟩ := h
        subst h2
        have := @ih pre1 (by simpa using hb)
        simp [← h1, this]
      · exact absurd h (by simp)

theorem dropCR_length (l : Str) : (dropCR l).length ≤ l.length := by
  rw [dropCR]
  split
  · simp [List.length_dropLast]
  · exact Nat.le_refl _

theorem scanLines_fst_le (data : Str) (atEOF : Bool) :
    (scanLines data atEOF).1 ≤ data.length := by
  rw [scanLines]
  split
  · simp
  · split
    · rename_i pre post hb
      have := breakLine_eq hb
      subst this
      simp
    · split
      · exact Nat.le_refl _
      · simp

theorem scanLines_snd_le (data : Str) (atEOF : Bool) :
    ((scanLines data atEOF).2.getD []).length ≤ (scanLines data atEOF).1 := by
  rw [scanLines]
  split
  · simp
  · split
    · rename_i pre post hb
      have h1 := dropCR_length pre
      simp only [Option.getD_some]
      omega
    · split
      · simpa using dropCR_length data
      · simp

/-- The joining loop of `scanLineWithEscape`: while the token ends in a
backslash, drop the backslash and append the next `bufio.ScanLines` token
taken from the data past the current advance. -/
def escapeLoop (data : Str) (atEOF : Bool) (adv : Nat) (token : Str) : Nat × Str :=
  if h : lastChar? token = some '\\' then
    let next := scanLines (data.drop adv) atEOF
    escapeLoop data atEOF (adv + next.1) (token.dropLast ++ next.2.getD [])
  else (adv, token)
termination_by (data.length - adv) + token.length
decreasing_by
  have htok : token ≠ [] := by
    intro he
    rw [he] at h
    simp [lastChar?] at h
  have h1 : (scanLines (data.drop adv) atEOF).1 ≤ data.length - adv := by
    have := scanLines_fst_le (data.drop adv) atEOF
    simpa using this
  have h2 := scanLines_snd_le (data.drop adv) atEOF
  have h3 : 1 ≤ token.length := List.length_pos.mpr htok
  simp only [List.length_append, List.length_dropLast]
  omega

/-- `scanLineWithEscape` (`src/depgrapher.go` 402-415): a drop-in
replacement for `bufio.ScanLines`, appending the next line whenever the
token's last byte is a backslash (the backslash itself is omitted). -/
def scanLineWithEscape (data : Str) (atEOF : Bool) : Nat × Option Str :=
  match scanLines data atEOF with
  | (adv, none) => (adv, none)
  | (adv, some token) =>
    let r := escapeLoop data atEOF adv token
    (r.1, some r.2)

theorem escapeLoop_fst_le (data : Str) (atEOF : Bool) (adv : Nat) (token : Str) :
    adv ≤ (escapeLoop data atEOF adv token).1 := by
  induction adv, token using escapeLoop.induct with
  | data => exact data
  | atEOF => exact atEOF
  | case1 adv token h next ih =>
    rw [escapeLoop, dif_pos h]
    dsimp only
    exact Nat.le_trans (Nat.le_add_right _ _) ih
  | case2 adv token h =>
    rw [escapeLoop, dif_neg h]

theorem scanLineWithEscape_pos {data : Str} {adv : Nat} {token : Str}
    (h : scanLineWithEscape data true = (adv, some token)) :
    1 ≤ adv ∧ data ≠ [] := by
  have hdata : data ≠ [] := by
    intro he
    subst he
    simp [scanLineWithEscape, scanLines] at h
  rw [scanLineWithEscape] at h
  split at h
  · simp at h
  · rename_i adv0 token0 heq
    simp only [Prod.mk.injEq, Option.some_inj] at h
    obtain ⟨h1, h2⟩ := h
    refine ⟨?_, hdata⟩
    have hle := escapeLoop_fst_le data true adv0 token0
    have hpos : 1 ≤ adv0 := by
      rw [scanLines] at heq
      split at heq
      · simp at heq
      · split at heq
        · rename_i pre post hb
          simp only [Prod.mk.injEq] at heq
          omega
        · split at heq
          · simp only [Prod.mk.injEq] at heq
            have : 0 < data.length := List.length_pos.mpr hdata
            omega
          · simp at heq
    omega

/-- The `for scanner.Scan()` driver: the sequence of tokens produced by
`scanLineWithEscape` over the full input (the scanner presents the data
at EOF once the underlying reader is exhausted). -/
def scanAll (data : Str) : List Str :=
  match h : scanLineWithEscape data true with
  | (_, none) => []
  | (adv, some token) => token :: scanAll (data.drop adv)
termination_by data.length
decreasing_by
  obtain ⟨h1, h2⟩ := scanLineWithEscape_pos h
  have h3 : 0 < data.length := List.length_pos.mpr h2
  simp only [List.length_drop]
  omega

/-! ## Ingestion (`Graph.FromScanner`, `src/depgrapher.go` 330-399) -/

/-- `scanDependencies` (`src/depgrapher.go` 377-399): split the declaration
body at the first `EdgeInfix` into a source group and a target group, split
the groups by their delimiters (sources only when `SourceDelimiter` is
non-empty), optionally trim whitespace, discard empty tokens and emit the
cross-product of edges in source-major order.  When the body does not
contain `EdgeInfix`, Go slices with index `-1` and panics (`none`). -/
def scanDependencies (line : Str) (syn : Syntax) : Option (List (Str × Str)) :=
  match firstIdx line syn.EdgeInfix with
  | none => none
  | some infixIndex =>
    let sources :=
      if syn.SourceDelimiter ≠ [] then
        splitOn (line.take infixIndex) syn.SourceDelimiter
      else [line.take infixIndex]
    let targets :=
      splitOn (line.drop (infixIndex + syn.EdgeInfix.length)) syn.TargetDelimiter
    some (sources.flatMap fun src =>
      let s := if syn.StripWhitespace then trimSpace src else src
      if s = [] then []
      else targets.filterMap fun tgt =>
        let t := if syn.StripWhitespace then trimSpace tgt else tgt
        if t = [] then none else some (s, t))

/-- The per-line loop over the configured syntaxes of `FromScanner`
(`src/depgrapher.go` 342-358).  `active` is the `activeSyntaxes` set, keyed
by the syntax's position in the configured list (Go keys it by pointer).
A syntax whose `GraphPrefix` occurs in the line becomes active; an inactive
syntax is skipped; a non-empty `GraphSuffix` occurring in the line
deactivates the syntax (after this line is still processed with it); when
`EdgePrefix`, `EdgeInfix` and the last `EdgeSuffix` are all found, the body
between prefix end and suffix start is scanned into edges via
`AddEdgeAndNodes` and the loop breaks.  A Go slice panic (body bounds
reversed, or `scanDependencies` slicing at `-1`) is `none`. -/
def processSyntaxes (g : Graph) (line : Str) (active : Finset Nat) :
    List (Nat × Syntax) → Option (Graph × Finset Nat)
  | [] => some (g, active)
  | (j, syn) :: rest =>
    let hasPre := containsStr line syn.GraphPrefix
    let active1 := if hasPre then insert j active else active
    if hasPre ∨ j ∈ active then
      let active2 :=
        if syn.GraphSuffix ≠ [] ∧ containsStr line syn.GraphSuffix then
          active1.erase j
        else active1
      match firstIdx line syn.EdgePrefix, firstIdx line syn.EdgeInfix,
          lastIdx line syn.EdgeSuffix with
      | some prefIndex, some _, some suffixIndex =>
        if prefIndex + syn.EdgePrefix.length ≤ suffixIndex then
          match scanDependencies
              ((line.take suffixIndex).drop (prefIndex + syn.EdgePrefix.length)) syn with
          | some pairs =>
            some (pairs.foldl (fun g2 p => AddEdgeAndNodes g2 p.1 p.2) g, active2)
          | none => none
        else none
      | _, _, _ => processSyntaxes g line active2 rest
    else processSyntaxes g line active1 rest

/-- The outer `for scanner.Scan()` loop of `FromScanner`: process each
token in order, threading the graph and the active-syntax set. -/
def processLines (g : Graph) (active : Finset Nat)
    (syntaxes : List (Nat × Syntax)) : List Str → Option Graph
  | [] => some g
  | line :: rest =>
    match processSyntaxes g line active syntaxes with
    | some (g1, active1) => processLines g1 active1 syntaxes rest
    | none => none

/-- Result of `Graph.FromScanner`: the populated graph, or a panic. -/
inductive ScanResult where
  | ok (g : Graph)
  | panicked (msg : Str)
deriving DecidableEq

/-- `Graph.FromScanner` (`src/depgrapher.go` 330-361): panics when no
syntax is configured, otherwise splits the input with `scanLineWithEscape`
and feeds every line to the per-line syntax loop.  (With an in-memory
input the scanner itself never reports a read error, so the error return
of the Go method is always `nil` and is not modelled.) -/
def FromScanner (g : Graph) (data : Str) (syntaxes : List Syntax) : ScanResult :=
  if syntaxes = [] then
    .panicked "FromScanner: At least one syntax required!".toList
  else
    match processLines g ∅ syntaxes.enum (scanAll data) with
    | some g1 => .ok g1
    | none => .panicked "runtime error: slice bounds out of range".toList

/-! ## `Graph.GetDependencyGraph` (`src/depgrapher.go` 295-327) -/

/-- The target names of a list of edges, as a finite set. -/
def targetSet (l : List Edge) : Finset Str :=
  (l.map Edge.target).toFinset

/-- The walking loop of `GetDependencyGraph`
(`for i := 0; i < len(result.edges); i++`): inspect the result edge at
index `i`; when its target is not yet a result node, add the target to the
result nodes and append every edge of `g` leaving the target to the result
edges (mutating the iterated slice, which only ever grows); in either case
advance to the next index, until the index catches up with the growing edge
slice.  Termination is the interesting part: each round either consumes an
index or adds a genuinely new target name, of which there are finitely
many. -/
def depWalk (g : Graph) (resNodes : Finset Str) (resEdges : List Edge)
    (i : Nat) : Finset Str × List Edge :=
  if h : i < resEdges.length then
    let e := resEdges.get ⟨i, h⟩
    if e.target ∈ resNodes then depWalk g resNodes resEdges (i + 1)
    else depWalk g (insert e.target resNodes) (resEdges ++ outEdges g e.target) (i + 1)
  else (resNodes, resEdges)
termination_by ((targetSet (g.edges ++ resEdges) \ resNodes).card, resEdges.length - i)
decreasing_by
  · apply Prod.Lex.right
    omega
  · apply Prod.Lex.left
    have hmem : resEdges.get ⟨i, h⟩ ∈ resEdges := List.get_mem resEdges i h
    have htgt : (resEdges.get ⟨i, h⟩).target ∈ targetSet (g.edges ++ resEdges) := by
      simp only [targetSet, List.mem_toFinset, List.map_append, List.mem_append,
        List.mem_map]
      exact Or.inr ⟨_, hmem, rfl⟩
    have hset : targetSet (g.edges ++ (resEdges ++ outEdges g (resEdges.get ⟨i, h⟩).target))
        = targetSet (g.edges ++ resEdges) := by
      apply Finset.ext
      intro x
      simp only [targetSet, List.mem_toFinset, List.map_append, List.mem_append,
        List.mem_map, outEdges, List.mem_filter]
      constructor
      · rintro (h1 | h1 | ⟨e1, ⟨he1, _⟩, he2⟩)
        · exact Or.inl h1
        · exact Or.inr h1
        · exact Or.inl ⟨e1, he1, he2⟩
      · rintro (h1 | h1)
        · exact Or.inl h1
        · exact Or.inr (Or.inl h1)
    rw [hset]
    apply Finset.card_lt_card
    constructor
    · exact Finset.sdiff_subset_sdiff (le_refl _) (Finset.subset_insert _ _)
    · intro hsub
      rename_i hnotin
      have h1 : (resEdges.get ⟨i, h⟩).target ∈
          targetSet (g.edges ++ resEdges) \ resNodes :=
        Finset.mem_sdiff.mpr ⟨htgt, hnotin⟩
      have h2 := hsub h1
      rw [Finset.mem_sdiff] at h2
      exact h2.2 (Finset.mem_insert_self _ _)

/-- `Graph.GetDependencyGraph`: `nil` (`none`) when the root name is not a
node of `g`; otherwise a fresh graph seeded with the root node and the
root's outgoing edges and completed by the walking loop.  The method never
writes through the receiver, so the call leaves `g` itself unchanged; the
pair's second component is the receiver as left behind by the call. -/
def GetDependencyGraph (g : Graph) (nodename : Str) : Option Graph × Graph :=
  if nodename ∈ g.nodes then
    (some ⟨(depWalk g {nodename} (outEdges g nodename) 0).1,
      (depWalk g {nodename} (outEdges g nodename) 0).2⟩, g)
  else (none, g)

/-- One edge step of `g`: some edge goes from `u` to `v`. -/
def EdgeStep (g : Graph) (u v : Str) : Prop :=
  ∃ e ∈ g.edges, e.source = u ∧ e.target = v

/-- `v` is reachable from `u` in `g` by following edges forwards. -/
def Reaches (g : Graph) (u v : Str) : Prop :=
  Relation.ReflTransGen (EdgeStep g) u v

/-! ## Operation sequences (for the edge-endpoint invariant) -/

/-- The mutating operations of the graph interface. -/
inductive Op where
  | addNode (name : Str) (targets : List Str)
  | addEdge (source target : Str)
  | addEdgeAndNodes (source target : Str)
  | removeEdge (source target : Str)
  | removeNode (name : Str)
deriving DecidableEq

/-- Apply one operation; `none` is a Go panic. -/
def applyOp (g : Graph) : Op → Option Graph
  | .addNode n ts => AddNode g n ts
  | .addEdge s t => AddEdge g s t
  | .addEdgeAndNodes s t => some (AddEdgeAndNodes g s t)
  | .removeEdge s t => some (RemoveEdge g s t).2
  | .removeNode n => (RemoveNode g n).map (·.2)

/-- Run a sequence of operations from a starting graph; `none` as soon as
one of them panics. -/
def runFrom (g : Graph) : List Op → Option Graph
  | [] => some g
  | op :: ops =>
    match applyOp g op with
    | some g1 => runFrom g1 ops
    | none => none

/-- Run a sequence of operations from the empty graph. -/
def RunOps (ops : List Op) : Option Graph :=
  runFrom NewGraph ops

/-- The data-model invariant: every edge's source and target name is a
registered node. -/
def EdgeEndpointsRegistered (g : Graph) : Prop :=
  ∀ e ∈ g.edges, e.source ∈ g.nodes ∧ e.target ∈ g.nodes

instance : DecidablePred EdgeEndpointsRegistered := fun g => by
  unfold EdgeEndpointsRegistered
  infer_instance

/-! ## Invariant preservation lemmas -/

theorem lastEdgeD_mem (d : Edge) : ∀ l : List Edge, l ≠ [] → lastEdgeD d l ∈ l
  | [], h => absurd rfl h
  | [e], _ => by rw [lastEdgeD]; exact List.mem_singleton_self e
  | a :: e :: t, _ => by
    rw [lastEdgeD]
    exact List.mem_cons_of_mem _ (lastEdgeD_mem d (e :: t) (by simp))

theorem inv_NewGraph : EdgeEndpointsRegistered NewGraph := by
  intro e he
  simp [NewGraph] at he

theorem inv_AddNodeLoop {name : Str} {g g1 : Graph} {ts : List Str}
    (hname : name ∈ g.nodes) (hinv : EdgeEndpointsRegistered g)
    (h : AddNodeLoop name g ts = some g1) : EdgeEndpointsRegistered g1 := by
  induction ts generalizing g with
  | nil =>
    rw [AddNodeLoop] at h
    simp only [Option.some_inj] at h
    subst h
    exact hinv
  | cons t ts ih =>
    rw [AddNodeLoop] at h
    split at h
    · rename_i hmem
      refine ih (g := ⟨g.nodes, g.edges ++ [⟨name, t⟩]⟩) hname ?_ h
      intro e he
      simp only [List.mem_append, List.mem_singleton] at he
      rcases he with he | he
      · exact hinv e he
      · subst he
        exact ⟨hname, hmem⟩
    · exact absurd h (by simp)

theorem inv_AddNode {g g1 : Graph} {name : Str} {ts : List Str}
    (hinv : EdgeEndpointsRegistered g) (h : AddNode g name ts = some g1) :
    EdgeEndpointsRegistered g1 := by
  refine inv_AddNodeLoop (g := ⟨insert name g.nodes, g.edges⟩)
    (Finset.mem_insert_self _ _) ?_ h
  intro e he
  have := hinv e he
  exact ⟨Finset.mem_insert_of_mem this.1, Finset.mem_insert_of_mem this.2⟩

theorem inv_AddEdge {g g1 : Graph} {s t : Str}
    (hinv : EdgeEndpointsRegistered g) (h : AddEdge g s t = some g1) :
    EdgeEndpointsRegistered g1 := by
  rw [AddEdge] at h
  split at h
  · exact absurd h (by simp)
  split at h
  · exact absurd h (by simp)
  rename_i hs ht
  simp only [Option.some_inj] at h
  subst h
  intro e he
  simp only [List.mem_append, List.mem_singleton] at he
  rcases he with he | he
  · exact hinv e he
  · subst he
    exact ⟨not_not.mp hs, not_not.mp ht⟩

theorem inv_AddEdgeAndNodes {g : Graph} (s t : Str)
    (hinv : EdgeEndpointsRegistered g) :
    EdgeEndpointsRegistered (AddEdgeAndNodes g s t) := by
  intro e he
  rw [AddEdgeAndNodes] at he
  simp only [List.mem_append, List.mem_singleton] at he
  rw [AddEdgeAndNodes]
  rcases he with he | he
  · have := hinv e he
    exact ⟨Finset.mem_insert_of_mem (Finset.mem_insert_of_mem this.1),
      Finset.mem_insert_of_mem (Finset.mem_insert_of_mem this.2)⟩
  · subst he
    exact ⟨Finset.mem_insert_of_mem (Finset.mem_insert_self _ _),
      Finset.mem_insert_self _ _⟩

theorem inv_RemoveEdge {g : Graph} (s t : Str)
    (hinv : EdgeEndpointsRegistered g) :
    EdgeEndpointsRegistered (RemoveEdge g s t).2 := by
  rw [RemoveEdge]
  split
  · exact hinv
  · rename_i j hj
    intro e he
    simp only at he
    have h1 : e ∈ g.edges.set j (lastEdgeD zeroEdge g.edges) :=
      (List.dropLast_sublist _).subset he
    rcases List.mem_or_eq_of_mem_set h1 with h2 | h2
    · exact hinv e h2
    · subst h2
      have hne : g.edges ≠ [] := by
        intro hnil
        rw [hnil] at hj
        simp at hj
      exact hinv _ (lastEdgeD_mem _ _ hne)

theorem runFrom_inv {g g1 : Graph} {ops : List Op}
    (hinv : EdgeEndpointsRegistered g) (hops : ∀ n, Op.removeNode n ∉ ops)
    (h : runFrom g ops = some g1) : EdgeEndpointsRegistered g1 := by
  induction ops generalizing g with
  | nil =>
    rw [runFrom] at h
    simp only [Option.some_inj] at h
    subst h
    exact hinv
  | cons op ops ih =>
    rw [runFrom] at h
    rcases happ : applyOp g op with _ | g2
    · rw [happ] at h
      simp at h
    · rw [happ] at h
      have hinv2 : EdgeEndpointsRegistered g2 := by
        cases op with
        | addNode n ts => exact inv_AddNode hinv happ
        | addEdge s t => exact inv_AddEdge hinv happ
        | addEdgeAndNodes s t =>
          have hg2 : g2 = AddEdgeAndNodes g s t := by
            simpa [applyOp] using happ.symm
          subst hg2
          exact inv_AddEdgeAndNodes s t hinv
        | removeEdge s t =>
          have hg2 : g2 = (RemoveEdge g s t).2 := by
            simpa [applyOp] using happ.symm
          subst hg2
          exact inv_RemoveEdge s t hinv
        | removeNode n =>
          exact absurd (List.mem_cons_self _ _) (hops n)
      exact ih hinv2 (fun n hn => hops n (List.mem_cons_of_mem _ hn)) h

/-! ## Claims -/

/-- **C1** (code bug): with nodes `x`, `y` and edges `x→y`, `y→x`,
`RemoveNode "x"` returns `true` and removes the node, but the swap-delete
inside `for i, e := range g.edges` moves the not-yet-visited edge `y→x`
into an already-visited slot, so an edge with `x` as target survives:
`HasEdge("y","x")` still holds and `GetDependencies("y")` returns the `nil`
entry of the deleted node.  The claim that no incident edge remains is
false on this input. -/
theorem C1_removeNode_leaves_incident_edge :
    RemoveNode (AddEdgeAndNodes (AddEdgeAndNodes NewGraph "x".toList "y".toList)
        "y".toList "x".toList) "x".toList
      = some (true, ⟨{"y".toList}, [⟨"y".toList, "x".toList⟩]⟩) ∧
    GetNode (⟨{"y".toList}, [⟨"y".toList, "x".toList⟩]⟩ : Graph) "x".toList = none ∧
    HasEdge (⟨{"y".toList}, [⟨"y".toList, "x".toList⟩]⟩ : Graph) "y".toList "x".toList = true ∧
    GetDependencies (⟨{"y".toList}, [⟨"y".toList, "x".toList⟩]⟩ : Graph) "y".toList = [none] := by
  decide

/-- **C2** (counterexample): the operation sequence
`AddEdgeAndNodes(x,y); AddEdgeAndNodes(y,x); RemoveNode(x)` runs from the
empty graph without failing, yet leaves the edge `y→x` whose target is not
a registered node: the endpoint invariant does not hold for every operation
sequence. -/
theorem C2_invariant_broken_by_removeNode :
    RunOps [.addEdgeAndNodes "x".toList "y".toList,
        .addEdgeAndNodes "y".toList "x".toList, .removeNode "x".toList]
      = some ⟨{"y".toList}, [⟨"y".toList, "x".toList⟩]⟩ ∧
    ¬ EdgeEndpointsRegistered ⟨{"y".toList}, [⟨"y".toList, "x".toList⟩]⟩ := by
  decide

/-- **C2** (amended): for every sequence of `AddNode`, `AddEdge`,
`AddEdgeAndNodes` and `RemoveEdge` operations (no `RemoveNode`) that runs
from the empty graph without panicking, every edge's source and target name
of the resulting graph is a registered node. -/
theorem C2_endpoints_registered_without_removeNode {ops : List Op} {g : Graph}
    (hops : ∀ n, Op.removeNode n ∉ ops) (h : RunOps ops = some g) :
    EdgeEndpointsRegistered g :=
  runFrom_inv inv_NewGraph hops h

/-- Witness for the amended C2 theorem at a concrete operation sequence. -/
theorem C2_endpoints_registered_witness :
    EdgeEndpointsRegistered ⟨{"b".toList, "a".toList}, [⟨"a".toList, "b".toList⟩]⟩ :=
  @C2_endpoints_registered_without_removeNode
    [.addEdgeAndNodes "a".toList "b".toList]
    ⟨{"b".toList, "a".toList}, [⟨"a".toList, "b".toList⟩]⟩
    (fun n hn => by simp at hn) (by decide)

/-- **C7**: after `AddEdgeAndNodes(a, b)` the edge `a→b` is present and both
endpoint names are retrievable with `GetNode` (the operation is total: it
registers missing endpoints instead of failing). -/
theorem C7_addEdgeAndNodes_registers_edge_and_nodes (g : Graph) (a b : Str) :
    HasEdge (AddEdgeAndNodes g a b) a b = true ∧
    GetNode (AddEdgeAndNodes g a b) a = some a ∧
    GetNode (AddEdgeAndNodes g a b) b = some b := by
  refine ⟨?_, ?_, ?_⟩
  · simp [HasEdge, AddEdgeAndNodes]
  · simp [GetNode, AddEdgeAndNodes]
  · simp [GetNode, AddEdgeAndNodes]

/-- **C9**: `GetDependencyGraph` reads the receiver but never writes it:
whether or not the root name is found, the receiver after the call is the
receiver before the call. -/
theorem C9_getDependencyGraph_frame (g : Graph) (name : Str) :
    (GetDependencyGraph g name).2 = g := by
  rw [GetDependencyGraph]
  split <;> rfl

/-- **C10**: `FromScanner` with an empty syntax list panics with exactly the
message `FromScanner: At least one syntax required!`, for every receiver
graph and every input. -/
theorem C10_fromScanner_requires_syntax (g : Graph) (data : Str) :
    FromScanner g data [] =
      .panicked "FromScanner: At least one syntax required!".toList := by
  rfl

unseal ParseLoop in
/-- **C5** (code bug): `syntax.Parse` never parses a brace-delimited inline
definition.  Its scanning loop only runs while the first special character
sits at a positive index, so a brace block (which must start the token)
ends the loop and the whole block is rejected as an unknown preset name —
even for the documented well-formed 8-tuple with exactly 7 quoted fields.
Moreover `Parse` can panic: collecting exactly 6 quoted strings and then
meeting `}` at a positive index reaches `stringList[6]`, an index out of
range. -/
theorem C5_parse_brace_definitions_rejected :
    Parse "\x7b\"GraphPrefix\",\"EdgePrefix\",\"SourceDelimiter\",\"EdgeInfix\",\"TargetDelimiter\",\"EdgeSuffix\",\"GraphSuffix\",true\x7d".toList
      = .err ("Invalid syntax name: \x7b\"GraphPrefix\",\"EdgePrefix\",\"SourceDelimiter\",\"EdgeInfix\",\"TargetDelimiter\",\"EdgeSuffix\",\"GraphSuffix\",true\x7d".toList) ∧
    Parse "a\"b\"c\"d\"e\"f\"x\x7dm".toList =
      .panicked "runtime error: index out of range [6] with length 6".toList := by
  decide

unseal ParseLoop in
/-- **C6** (counterexample): preset names are not accepted
case-insensitively: `Parse "DOT"` fails with an error although `DOT` is a
casing of the known preset name `Dot`. -/
theorem C6_parse_rejects_uppercase_dot :
    Parse "DOT".toList = .err ("Invalid syntax name: DOT".toList) := by
  decide

theorem drop_append_cons (p : Str) (c : Char) (r : Str) :
    (p ++ c :: r).drop (p.length + 1) = r := by
  rw [show p ++ c :: r = (p ++ [c]) ++ r by simp]
  rw [show p.length + 1 = (p ++ [c]).length by simp]
  exact List.drop_left _ _

theorem firstIdxAny_eq_none {s : Str} {cs : List Char} (h : ∀ c ∈ s, c ∉ cs) :
    firstIdxAny s cs = none := by
  induction s with
  | nil => rfl
  | cons c t ih =>
    rw [firstIdxAny, if_neg (h c (List.mem_cons_self c t)),
      ih (fun x hx => h x (List.mem_cons_of_mem _ hx))]
    rfl

theorem firstIdxAny_append {t : Str} {c : Char} {cs : List Char} (r : Str)
    (ht : ∀ x ∈ t, x ∉ cs) (hc : c ∈ cs) :
    firstIdxAny (t ++ c :: r) cs = some t.length := by
  induction t with
  | nil =>
    rw [List.nil_append, firstIdxAny, if_pos hc]
    rfl
  | cons x t1 ih =>
    rw [List.cons_append, firstIdxAny,
      if_neg (ht x (List.mem_cons_self x t1)),
      ih (fun y hy => ht y (List.mem_cons_of_mem _ hy))]
    rfl

theorem getD_append_cons : ∀ (t : Str) (c : Char) (r : Str) (d : Char),
    (t ++ c :: r).getD t.length d = c
  | [], _, _, _ => rfl
  | x :: t1, c, r, d => by
    rw [List.cons_append]
    show (t1 ++ c :: r).getD t1.length d = c
    exact getD_append_cons t1 c r d

theorem ParseTokenPreset_eq_none_iff {s : Str} :
    ParseTokenPreset s = none ↔ s ∉ presetSpellings := by
  rw [ParseTokenPreset]
  split_ifs with h1 h2 h3 <;> simp_all [presetSpellings] <;> tauto

/-- A string free of `Parse`'s split-point characters never enters its scan
loop: it is handed whole to the trailing preset-name `switch`. -/
theorem parse_final_of_no_special {s : Str} (h : ∀ c ∈ s, c ∉ specialChars)
    (result : List Syntax) (sl : List Str) :
    ParseLoop s result sl = ParseFinal s result := by
  rw [ParseLoop]
  split
  · rfl
  · rename_i index heq
    rw [firstIdxAny_eq_none (fun c hc => by simpa [specialChars] using h c hc)]
      at heq
    exact absurd heq (by simp)

/-- One comma step of `Parse`'s scan loop: a non-empty token free of
split-point characters, followed by a comma, is resolved through the preset
`switch` and the loop continues after the comma. -/
theorem parseLoop_comma_step {t : Str} (r : Str)
    (ht : ∀ x ∈ t, x ∉ specialChars) (ht0 : t ≠ [])
    (result : List Syntax) (sl : List Str) :
    ParseLoop (t ++ ',' :: r) result sl =
      match ParseTokenPreset t with
      | some l => ParseLoop r (result ++ l) sl
      | none => .err ("Invalid syntax name: ".toList ++ t) := by
  have hfia : firstIdxAny (t ++ ',' :: r) [',', '{', '}', '"', '\'']
      = some t.length :=
    firstIdxAny_append r (fun x hx => by simpa [specialChars] using ht x hx)
      (by simp)
  rw [ParseLoop]
  split
  · rename_i heq
    rw [hfia] at heq
    exact absurd heq (by simp)
  · rename_i index heq
    rw [hfia] at heq
    have hidx : t.length = index := by
      simpa using heq
    subst hidx
    rw [if_neg (fun h0 => ht0 (List.length_eq_zero.mp h0))]
    dsimp only
    rw [getD_append_cons, if_pos rfl, List.take_left, drop_append_cons]

theorem presetSpellings_no_special :
    ∀ t ∈ presetSpellings, ∀ c ∈ t, c ∉ specialChars := by
  decide

theorem presetSpellings_ne_nil : ∀ t ∈ presetSpellings, t ≠ [] := by
  decide

theorem presetSpellings_isSome :
    ∀ t ∈ presetSpellings, (ParseTokenPreset t).isSome = true := by
  decide

/-- The scan loop on a comma-join of listed preset spellings appends the
corresponding presets in order. -/
theorem parseLoop_joinComma : ∀ (ts : List Str), ts ≠ [] →
    (∀ t ∈ ts, t ∈ presetSpellings) →
    ∀ (result : List Syntax) (sl : List Str),
    ParseLoop (joinComma ts) result sl
      = .ok (result ++ ts.flatMap fun t => (ParseTokenPreset t).getD [])
  | [], h, _ => absurd rfl h
  | [t], _, hmem => by
    intro result sl
    have hmt := hmem t (List.mem_cons_self t [])
    rw [joinComma, parse_final_of_no_special (presetSpellings_no_special t hmt)]
    obtain ⟨l, hl⟩ :=
      Option.isSome_iff_exists.mp (presetSpellings_isSome t hmt)
    rw [ParseFinal, hl]
    simp [hl]
  | t :: t2 :: ts, _, hmem => by
    intro result sl
    have hmt := hmem t (List.mem_cons_self t (t2 :: ts))
    rw [joinComma,
      parseLoop_comma_step _ (presetSpellings_no_special t hmt)
        (presetSpellings_ne_nil t hmt)]
    obtain ⟨l, hl⟩ :=
      Option.isSome_iff_exists.mp (presetSpellings_isSome t hmt)
    rw [hl]
    show ParseLoop (joinComma (t2 :: ts)) (result ++ l) sl = _
    rw [parseLoop_joinComma (t2 :: ts) (by simp)
      (fun x hx => hmem x (List.mem_cons_of_mem _ hx)) (result ++ l) sl]
    simp [hl]

unseal ParseLoop in
/-- **C6** (amended): `Parse` accepts preset names only in the exact
spellings listed in its `switch` (`Makefile`/`makefile`/`Make`/`make`/`m`,
`MakeCall`/`makecall`/`c`, `Dot`/`dot`/`d`): every comma-separated list of
these spellings yields the ordered concatenation of the corresponding
presets, and every other token free of the split-point characters is
rejected with an error.  In particular `"Makefile,Dot"` yields the two
presets field for field, and each single spelling yields its preset. -/
theorem C6_parse_exact_spellings :
    (∀ ts : List Str, ts ≠ [] → (∀ t ∈ ts, t ∈ presetSpellings) →
      Parse (joinComma ts)
        = .ok (ts.flatMap fun t => (ParseTokenPreset t).getD [])) ∧
    (∀ s : Str, (∀ c ∈ s, c ∉ specialChars) → s ∉ presetSpellings →
      Parse s = .err ("Invalid syntax name: ".toList ++ s)) ∧
    (Parse "Makefile,Dot".toList = .ok [Makefile, Dot] ∧
     Parse "Makefile".toList = .ok [Makefile] ∧
     Parse "makefile".toList = .ok [Makefile] ∧
     Parse "Make".toList = .ok [Makefile] ∧
     Parse "make".toList = .ok [Makefile] ∧
     Parse "m".toList = .ok [Makefile] ∧
     Parse "MakeCall".toList = .ok MakeCall ∧
     Parse "makecall".toList = .ok MakeCall ∧
     Parse "c".toList = .ok MakeCall ∧
     Parse "Dot".toList = .ok [Dot] ∧
     Parse "dot".toList = .ok [Dot] ∧
     Parse "d".toList = .ok [Dot]) := by
  refine ⟨?_, ?_, ?_⟩
  · intro ts hne hmem
    rw [Parse, parseLoop_joinComma ts hne hmem [] []]
    simp
  · intro s hns hnp
    rw [Parse, parse_final_of_no_special hns, ParseFinal,
      ParseTokenPreset_eq_none_iff.mpr hnp]
  · decide

/-- Witness for the amended C6 theorem: the abbreviation list `"m,c,d"`
yields the Makefile preset, the two MakeCall presets and the Dot preset in
order, and the unlisted token `"Dott"` is rejected. -/
theorem C6_parse_exact_spellings_witness :
    Parse "m,c,d".toList = .ok ([Makefile] ++ MakeCall ++ [Dot]) ∧
    Parse "Dott".toList = .err ("Invalid syntax name: Dott".toList) := by
  constructor
  · have h := C6_parse_exact_spellings.1
      ["m".toList, "c".toList, "d".toList] (by simp) (by decide)
    have hj : joinComma ["m".toList, "c".toList, "d".toList]
        = "m,c,d".toList := by decide
    rw [hj] at h
    rw [h]
    decide
  · have h := C6_parse_exact_spellings.2.1 "Dott".toList (by decide) (by decide)
    exact h

/-- The Makefile-style input of the round-trip property. -/
def c4Input : Str := "1:2 3\n2 3:4 5 6 7\n".toList

/-- The graph produced by ingesting `c4Input` with the Makefile preset. -/
def c4Graph : Graph :=
  match FromScanner NewGraph c4Input [Makefile] with
  | .ok g => g
  | .panicked _ => NewGraph

unseal scanAll escapeLoop splitOn in
/-- **C4**: ingesting `"1:2 3\n2 3:4 5 6 7\n"` with the Makefile preset
succeeds and produces exactly the seven nodes named `1`…`7` and exactly the
ten cross-product edges 1→2, 1→3, 2→4, 2→5, 2→6, 2→7, 3→4, 3→5, 3→6, 3→7
(in that order). -/
theorem C4_makefile_roundtrip :
    (FromScanner NewGraph c4Input [Makefile] = .ok c4Graph) ∧
    c4Graph.edges =
        [⟨"1".toList, "2".toList⟩, ⟨"1".toList, "3".toList⟩,
         ⟨"2".toList, "4".toList⟩, ⟨"2".toList, "5".toList⟩,
         ⟨"2".toList, "6".toList⟩, ⟨"2".toList, "7".toList⟩,
         ⟨"3".toList, "4".toList⟩, ⟨"3".toList, "5".toList⟩,
         ⟨"3".toList, "6".toList⟩, ⟨"3".toList, "7".toList⟩] ∧
    c4Graph.nodes.card = 7 ∧
    ("1".toList ∈ c4Graph.nodes ∧ "2".toList ∈ c4Graph.nodes ∧
     "3".toList ∈ c4Graph.nodes ∧ "4".toList ∈ c4Graph.nodes ∧
     "5".toList ∈ c4Graph.nodes ∧ "6".toList ∈ c4Graph.nodes ∧
     "7".toList ∈ c4Graph.nodes) := by
  decide

/-! ## Line-continuation lemmas (C8) -/

theorem lastChar?_concat : ∀ (l : Str) (c : Char), lastChar? (l ++ [c]) = some c
  | [], c => rfl
  | [_], c => rfl
  | x :: y :: t, c => by
    have h := lastChar?_concat (y :: t) c
    simpa [lastChar?] using h

theorem lastChar?_append (s : Str) {t : Str} (h : t ≠ []) :
    lastChar? (s ++ t) = lastChar? t := by
  obtain ⟨t0, c, rfl⟩ : ∃ t0 c, t = t0 ++ [c] :=
    ⟨t.dropLast, t.getLast h, (List.dropLast_append_getLast h).symm⟩
  rw [← List.append_assoc, lastChar?_concat, lastChar?_concat]

theorem dropCR_eq_self {l : Str} (h : lastChar? l ≠ some '\r') : dropCR l = l := by
  rw [dropCR, if_neg h]

theorem breakLine_append {p : Str} (hp : '\n' ∉ p) (r : Str) :
    breakLine (p ++ '\n' :: r) = some (p, r) := by
  induction p with
  | nil => rw [List.nil_append, breakLine, if_pos rfl]
  | cons c t ih =>
    have hc : ¬ c = '\n' := fun hcc => hp (hcc ▸ List.mem_cons_self c t)
    rw [List.cons_append, breakLine, if_neg hc,
      ih (fun hm => hp (List.mem_cons_of_mem _ hm))]

theorem scanLines_append {p : Str} (hp : '\n' ∉ p) (r : Str) (atEOF : Bool) :
    scanLines (p ++ '\n' :: r) atEOF = (p.length + 1, some (dropCR p)) := by
  rw [scanLines, if_neg (by rintro ⟨-, h2⟩; exact List.append_ne_nil_of_right_ne_nil p (by simp) h2),
    breakLine_append hp]

/-- **C8**: the line splitter joins backslash-continued physical lines
before any syntax matching, stripping each continuation backslash, and the
joining chains across three physical lines: for all line bodies `a`, `b`,
`c` without newlines (`c` non-empty and not itself ending in a continuation
backslash or a carriage return), splitting
`a\⏎b\⏎c⏎rest` produces the single token `a ++ b ++ c` while consuming all
three physical lines. -/
theorem C8_backslash_joins_lines (a b c rest : Str) (atEOF : Bool)
    (ha : '\n' ∉ a) (hb : '\n' ∉ b) (hc : '\n' ∉ c) (hc0 : c ≠ [])
    (hcb : lastChar? c ≠ some '\\') (hcr : lastChar? c ≠ some '\r') :
    scanLineWithEscape (a ++ '\\' :: '\n' :: (b ++ '\\' :: '\n' :: (c ++ '\n' :: rest))) atEOF
      = (a.length + b.length + c.length + 5, some (a ++ b ++ c)) := by
  have hnb : ('\\' : Char) ≠ '\n' := by decide
  have hbsr : (some '\\' : Option Char) ≠ some '\r' := by decide
  have hna : '\n' ∉ a ++ ['\\'] := by
    intro hm
    rcases List.mem_append.mp hm with hm | hm
    · exact ha hm
    · simp at hm
  have hnb2 : '\n' ∉ b ++ ['\\'] := by
    intro hm
    rcases List.mem_append.mp hm with hm | hm
    · exact hb hm
    · simp at hm
  -- the three physical lines as append-of-prefix decompositions
  have hd1 : a ++ '\\' :: '\n' :: (b ++ '\\' :: '\n' :: (c ++ '\n' :: rest))
      = (a ++ ['\\']) ++ '\n' :: (b ++ '\\' :: '\n' :: (c ++ '\n' :: rest)) := by
    simp
  have hd2 : b ++ '\\' :: '\n' :: (c ++ '\n' :: rest)
      = (b ++ ['\\']) ++ '\n' :: (c ++ '\n' :: rest) := by
    simp
  -- first ScanLines call
  have h1 : scanLines (a ++ '\\' :: '\n' :: (b ++ '\\' :: '\n' :: (c ++ '\n' :: rest))) atEOF
      = (a.length + 2, some (a ++ ['\\'])) := by
    rw [hd1, scanLines_append hna,
      dropCR_eq_self (by rw [lastChar?_concat]; exact fun hcon => hbsr hcon)]
    simp
  -- dropping the first physical line
  have hdr1 : (a ++ '\\' :: '\n' :: (b ++ '\\' :: '\n' :: (c ++ '\n' :: rest))).drop (a.length + 2)
      = b ++ '\\' :: '\n' :: (c ++ '\n' :: rest) := by
    rw [hd1, show a.length + 2 = (a ++ ['\\']).length + 1 by simp]
    exact drop_append_cons _ _ _
  -- second ScanLines call
  have h2 : scanLines (b ++ '\\' :: '\n' :: (c ++ '\n' :: rest)) atEOF
      = (b.length + 2, some (b ++ ['\\'])) := by
    rw [hd2, scanLines_append hnb2,
      dropCR_eq_self (by rw [lastChar?_concat]; exact fun hcon => hbsr hcon)]
    simp
  -- dropping the first two physical lines
  have hdr2 : (a ++ '\\' :: '\n' :: (b ++ '\\' :: '\n' :: (c ++ '\n' :: rest))).drop
        ((a.length + 2) + (b.length + 2))
      = c ++ '\n' :: rest := by
    rw [show (a.length + 2) + (b.length + 2) = (a.length + 2) + (b.length + 2) from rfl,
      ← List.drop_drop, hdr1, hd2, show b.length + 2 = (b ++ ['\\']).length + 1 by simp]
    exact drop_append_cons _ _ _
  -- third ScanLines call
  have h3 : scanLines (c ++ '\n' :: rest) atEOF = (c.length + 1, some c) := by
    rw [scanLines_append hc, dropCR_eq_self hcr]
  -- now run the splitter
  rw [scanLineWithEscape, h1]
  dsimp only
  rw [escapeLoop, dif_pos (lastChar?_concat a '\\')]
  dsimp only
  rw [hdr1, h2]
  dsimp only [Option.getD_some]
  rw [List.dropLast_concat]
  rw [show a ++ (b ++ ['\\']) = (a ++ b) ++ ['\\'] by simp]
  rw [escapeLoop, dif_pos (lastChar?_concat (a ++ b) '\\')]
  dsimp only
  rw [hdr2, h3]
  dsimp only [Option.getD_some]
  rw [List.dropLast_concat]
  rw [escapeLoop, dif_neg (by rw [lastChar?_append _ hc0]; exact hcb)]
  dsimp only
  rw [Prod.mk.injEq]
  refine ⟨by omega, by simp⟩

/-- Witness for C8: the three-line continued input `ab\⏎cd\⏎ef⏎` is split
into the single token `abcdef`, consuming 11 bytes. -/
theorem C8_backslash_joins_lines_witness :
    scanLineWithEscape "ab\\\ncd\\\nef\n".toList true = (11, some "abcdef".toList) := by
  have h := C8_backslash_joins_lines "ab".toList "cd".toList "ef".toList [] true
    (by decide) (by decide) (by decide) (by decide) (by decide) (by decide)
  have hdata : "ab\\\ncd\\\nef\n".toList
      = "ab".toList ++ '\\' :: '\n' :: ("cd".toList ++ '\\' :: '\n' :: ("ef".toList ++ '\n' :: [])) := by
    decide
  rw [hdata, h]
  decide

/-! ## Correctness of the dependency-subgraph walk (C3) -/

theorem depWalk_spec (g : Graph) (root : Str) (S : Finset Str) (E : List Edge)
    (i : Nat)
    (h1 : ∀ e ∈ E, e ∈ g.edges ∧ e.source ∈ S)
    (h2 : ∀ v ∈ S, Reaches g root v)
    (h3 : ∀ v ∈ S, ∀ e ∈ g.edges, e.source = v → e ∈ E)
    (h4 : ∀ j, j < i → ∀ hj : j < E.length, (E.get ⟨j, hj⟩).target ∈ S)
    (h5 : root ∈ S) :
    (∀ v, v ∈ (depWalk g S E i).1 ↔ Reaches g root v) ∧
    (∀ e, e ∈ (depWalk g S E i).2 ↔ e ∈ g.edges ∧ Reaches g root e.source) := by
  induction S, E, i using depWalk.induct with
  | g => exact g
  | case1 S E i h e htgt ih =>
    have htgt1 : (E.get ⟨i, h⟩).target ∈ S := htgt
    rw [depWalk, dif_pos h]
    dsimp only
    rw [if_pos htgt1]
    refine ih h1 h2 h3 ?_ h5
    intro j hj hjl
    rcases Nat.lt_succ_iff_lt_or_eq.mp hj with hj | hj
    · exact h4 j hj hjl
    · subst hj
      exact htgt1
  | case2 S E i h e htgt ih =>
    have htgt1 : (E.get ⟨i, h⟩).target ∉ S := htgt
    rw [depWalk, dif_pos h]
    dsimp only
    rw [if_neg htgt1]
    have hmem : E.get ⟨i, h⟩ ∈ E := List.get_mem E i h
    have hE := h1 _ hmem
    have hreachT : Reaches g root (E.get ⟨i, h⟩).target :=
      Relation.ReflTransGen.tail (h2 _ hE.2) ⟨E.get ⟨i, h⟩, hE.1, rfl, rfl⟩
    refine ih ?_ ?_ ?_ ?_ (Finset.mem_insert_of_mem h5)
    · intro e1 he1
      rcases List.mem_append.mp he1 with he1 | he1
      · have := h1 e1 he1
        exact ⟨this.1, Finset.mem_insert_of_mem this.2⟩
      · have := List.mem_filter.mp he1
        refine ⟨this.1, ?_⟩
        have hsrc : e1.source = (E.get ⟨i, h⟩).target := by
          simpa using this.2
        rw [hsrc]
        exact Finset.mem_insert_self _ _
    · intro v hv
      rcases Finset.mem_insert.mp hv with hv | hv
      · exact hv ▸ hreachT
      · exact h2 v hv
    · intro v hv e1 he1 hsrc
      rcases Finset.mem_insert.mp hv with hv | hv
      · refine List.mem_append_right _ (List.mem_filter.mpr ⟨he1, ?_⟩)
        simp [hsrc, hv, outEdges]
      · exact List.mem_append_left _ (h3 v hv e1 he1 hsrc)
    · intro j hj hjl
      have hjE : j < E.length := by
        rcases Nat.lt_succ_iff_lt_or_eq.mp hj with hj1 | hj1
        · omega
        · omega
      have hget : (E ++ outEdges g (E.get ⟨i, h⟩).target).get ⟨j, hjl⟩
          = E.get ⟨j, hjE⟩ := by
        simp only [List.get_eq_getElem]
        exact List.getElem_append_left hjE
      rw [hget]
      rcases Nat.lt_succ_iff_lt_or_eq.mp hj with hj1 | hj1
      · exact Finset.mem_insert_of_mem (h4 j hj1 hjE)
      · subst hj1
        exact Finset.mem_insert_self _ _
  | case3 S E i h =>
    rw [depWalk, dif_neg h]
    dsimp only
    have hclosed : ∀ e ∈ E, e.target ∈ S := by
      intro e he
      obtain ⟨⟨j, hjl⟩, hget⟩ := List.mem_iff_get.mp he
      have := h4 j (by omega) hjl
      rw [hget] at this
      exact this
    have ha : ∀ v, v ∈ S ↔ Reaches g root v := by
      intro v
      constructor
      · exact h2 v
      · intro hr
        induction hr with
        | refl => exact h5
        | tail hprev hstep ih2 =>
          obtain ⟨e, he, hsrc, htg⟩ := hstep
          exact htg ▸ hclosed e (h3 _ ih2 e he hsrc)
    refine ⟨ha, ?_⟩
    intro e
    constructor
    · intro he
      exact ⟨(h1 e he).1, h2 _ (h1 e he).2⟩
    · rintro ⟨hge, hre⟩
      exact h3 _ ((ha e.source).mpr hre) e hge rfl

/-- **C3**: `GetDependencyGraph(root)` is absent exactly when the root name
is not a node; otherwise the returned graph's node set is exactly the set
of names reachable from the root by following edges forwards (each included
once — the node collection is a set), and its edge collection contains an
edge if and only if it is an edge of the original graph whose source is
reachable (in particular edges into already-included nodes are included).
Totality of the embedded walk is the termination claim: the Lean function
is total, the cyclic-input witness below exercises a cycle. -/
theorem C3_getDependencyGraph_reachability (g : Graph) (root : Str) :
    ((GetDependencyGraph g root).1 = none ↔ root ∉ g.nodes) ∧
    (∀ r, (GetDependencyGraph g root).1 = some r →
      (∀ v, v ∈ r.nodes ↔ Reaches g root v) ∧
      (∀ e, e ∈ r.edges ↔ e ∈ g.edges ∧ Reaches g root e.source)) := by
  constructor
  · rw [GetDependencyGraph]
    split
    · rename_i hin
      simp [hin]
    · rename_i hin
      simp [hin]
  · intro r hr
    rw [GetDependencyGraph] at hr
    split at hr
    · rename_i hin
      simp only [Option.some_inj] at hr
      have hspec := depWalk_spec g root {root} (outEdges g root) 0
        (fun e he => by
          have := List.mem_filter.mp he
          refine ⟨this.1, ?_⟩
          have : e.source = root := by simpa using this.2
          simp [this])
        (fun v hv => by
          have : v = root := by simpa using hv
          exact this ▸ Relation.ReflTransGen.refl)
        (fun v hv e he hsrc => by
          have hv1 : v = root := by simpa using hv
          exact List.mem_filter.mpr ⟨he, by simp [outEdges, hsrc, hv1]⟩)
        (fun j hj => by omega)
        (Finset.mem_singleton_self root)
      rw [← hr]
      exact hspec
    · simp at hr

/-- The cyclic two-node graph `a→b→a` used to witness C3. -/
def c3Cyclic : Graph :=
  ⟨{"a".toList, "b".toList},
   [⟨"a".toList, "b".toList⟩, ⟨"b".toList, "a".toList⟩]⟩

/-- The dependency subgraph computed for root `a` of the cyclic graph. -/
def c3Result : Graph :=
  match (GetDependencyGraph c3Cyclic "a".toList).1 with
  | some r => r
  | none => NewGraph

unseal depWalk in
/-- Witness for C3 on a cyclic graph: the walk terminates with a result,
and via the theorem the node `b` of the cycle `a→b→a` is reachable from
`a`. -/
theorem C3_getDependencyGraph_reachability_witness :
    (GetDependencyGraph c3Cyclic "a".toList).1 = some c3Result ∧
    Reaches c3Cyclic "a".toList "b".toList := by
  have heval : (GetDependencyGraph c3Cyclic "a".toList).1 = some c3Result := by
    decide
  refine ⟨heval, ?_⟩
  have h := ((C3_getDependencyGraph_reachability c3Cyclic "a".toList).2
    c3Result heval).1 "b".toList
  exact h.mp (by decide)

end Depgrapher
